import Mathlib

/-!
Verification of the contact-extraction pipeline of `influencer-finder.py`.

The source program is a single Python file.  Its core is the class
`InfluencerFinder` with:
  * `email_pattern` — the regex `[a-zA-Z0-9._%+-]+@[a-zA-Z0-9.-]+\.[a-zA-Z]{2,}`;
  * `sns_patterns` — per-platform regex lists (protocol form first, bare form second);
  * `_extract_company_name` — successive split of a title on an ordered separator list;
  * `_extract_emails` — `findall` + `list(set(...))` de-duplication;
  * `_extract_sns_urls` — first regex match per platform, `https://` prefix when the
    match does not start with `http`;
  * `_extract_sns_urls_from_links` — an `elif` chain over anchor hrefs, last write wins;
  * `extract_contact_info` — fetch + merge of the signal sources into a result record;
  * `process_search_results` — the orchestrator loop over `results[:max_pages_to_scan]`.

We embed these shallowly over `List Char`.  Python's regex engine is embedded by
functions computing, for each concrete pattern of the source, the match the engine
finds at a position (the patterns involved have deterministic backtracking, justified
pointwise in comments), and a left-to-right non-overlapping scan (`findall`).
External effects are oracles: the HTTP fetch is a function `List Char → Option Page`
(`none` models timeout / connection error / non-success status, all of which the
source catches), and the unspecified iteration order of Python's `set` is a function
argument constrained only by `ValidDedup`.
-/

namespace InfluencerFinder

/-! ### Character classes of the source's regexes -/

/-- Characters `a-z`, corresponding to the regex range `a-z`. -/
def isLowerAZ (c : Char) : Bool := 'a' ≤ c && c ≤ 'z'

/-- Characters `A-Z`, corresponding to the regex range `A-Z`. -/
def isUpperAZ (c : Char) : Bool := 'A' ≤ c && c ≤ 'Z'

/-- The regex class `[a-zA-Z]`. -/
def isAsciiAlpha (c : Char) : Bool := isLowerAZ c || isUpperAZ c

/-- The regex class `[0-9]`. -/
def isAsciiDigit (c : Char) : Bool := '0' ≤ c && c ≤ '9'

/-- The regex class `[a-zA-Z0-9]`. -/
def isAlnum (c : Char) : Bool := isAsciiAlpha c || isAsciiDigit c

/-- The local-part class of `email_pattern`: `[a-zA-Z0-9._%+-]`. -/
def isLocalChar (c : Char) : Bool :=
  isAlnum c || c = '.' || c = '_' || c = '%' || c = '+' || c = '-'

/-- The domain class of `email_pattern`: `[a-zA-Z0-9.-]`. -/
def isDomainChar (c : Char) : Bool := isAlnum c || c = '.' || c = '-'

/-! ### The email regex `[a-zA-Z0-9._%+-]+@[a-zA-Z0-9.-]+\.[a-zA-Z]{2,}`

At a given start position the Python engine matches:
  * a maximal nonempty run of local-part characters (shrinking the greedy `+` can
    never help, because the character that follows a shrunk run is again a
    local-part character, never `@`);
  * the literal `@`;
  * then, writing `M` for the maximal run of domain characters after the `@`
    (every character the rest of the pattern can consume is a domain character,
    so the whole remainder of the match lies inside `M`), the greedy first group
    takes the longest prefix `d` of `M` that is followed in `M` by a dot and then
    by an alphabetic run of length at least two; the `[a-zA-Z]{2,}` then greedily
    takes that whole alphabetic run.
`findall` scans start positions left to right and continues after each match.
-/

/-- Try a domain split with `d = M.take k`: requires a dot at position `k` and an
alphabetic run of length at least 2 after it.  Returns the length of the matched
`d ++ . ++ tld` portion. -/
def domSplitAt (M : List Char) (k : Nat) : Option Nat :=
  if M.get? k = some '.' then
    let t := (M.drop (k + 1)).takeWhile isAsciiAlpha
    if 2 ≤ t.length then some (k + 1 + t.length) else none
  else none

/-- Search splits `k, k-1, ..., 1` (greedy: longest `d` first). -/
def domSearch (M : List Char) : Nat → Option Nat
  | 0 => none
  | k + 1 =>
    match domSplitAt M (k + 1) with
    | some n => some n
    | none => domSearch M k

/-- The match of `email_pattern` at the start of `s`, as a length. -/
def emailMatchAt (s : List Char) : Option Nat :=
  let lp := s.takeWhile isLocalChar
  if lp.length = 0 then none
  else
    match s.drop lp.length with
    | '@' :: rest =>
      let M := rest.takeWhile isDomainChar
      match domSearch M (M.length - 1) with
      | some n => some (lp.length + 1 + n)
      | none => none
    | _ => none

/-- Fuel-indexed scan; the fuel only serves structural recursion and is
irrelevant as soon as it is at least the length of the list
(`emailFindallAux_fuel`).  A successful match has length `n ≥ 1` (the local
part is nonempty), so continuing at `cs.drop (n - 1)` is continuing right
after the match. -/
def emailFindallAux : Nat → List Char → List (List Char)
  | 0, _ => []
  | _ + 1, [] => []
  | fuel + 1, c :: cs =>
    match emailMatchAt (c :: cs) with
    | some n => (c :: cs).take n :: emailFindallAux fuel (cs.drop (n - 1))
    | none => emailFindallAux fuel cs

/-- `email_pattern.findall`: left-to-right scan, non-overlapping matches. -/
def emailFindall (s : List Char) : List (List Char) := emailFindallAux s.length s

/-! ### `_extract_company_name`

```python
separators = ['|', '-', ':', '：', '／', '/', '｜']
company_name = title
for sep in separators:
    if sep in company_name:
        parts = company_name.split(sep)
        company_name = parts[0].strip()
return company_name
```
All separators are single characters, so `company_name.split(sep)[0]` is the part
before the first occurrence of `sep`, i.e. `takeWhile (· ≠ sep)`. -/

/-- Python `str.strip()` whitespace (the ASCII part; none of the separators is
whitespace, which is all the proofs use). -/
def pySpace (c : Char) : Bool :=
  c = ' ' || c = '\t' || c = '\n' || c = '\r' || c = Char.ofNat 11 || c = Char.ofNat 12

/-- Python `s.strip()`: drop whitespace from both ends. -/
def pyStrip (s : List Char) : List Char :=
  ((s.dropWhile pySpace).reverse.dropWhile pySpace).reverse

/-- Python `s.split(sep)[0]` for a single-character `sep`. -/
def splitFirst (sep : Char) (s : List Char) : List Char :=
  s.takeWhile (fun c => c ≠ sep)

/-- The ordered separator list of `_extract_company_name`. -/
def separators : List Char := ['|', '-', ':', '：', '／', '/', '｜']

/-- `_extract_company_name` (lines 157-176). -/
def extract_company_name (title : List Char) : List Char :=
  separators.foldl (fun cn sep => if sep ∈ cn then pyStrip (splitFirst sep cn) else cn) title

/-! ### The SNS profile-URL patterns (`sns_patterns`, `_extract_sns_urls`)

Each of the source's 14 regexes is a concatenation of literals, committed
alternations of literals, one greedy character-class run, and an optional
trailing `/`.  For these shapes the Python engine's backtracking is vacuous:

  * `https?://` — if the greedy `s?` consumes an `s` and `://` then fails, the
    backtracked attempt needs `:` where the string has `s`, so it also fails;
    hence it equals the committed alternation `https://` | `http://`.
  * `(?:www\.)?` — if `www.` was consumed and the following domain literal fails,
    the backtracked attempt must match the domain literal (starting `i`, `t`,
    `y`, `x` or `f`) against a string starting `w`, so it also fails.
  * `(?:channel|user|c)/` and `(?:twitter|x)\.com` — the alternatives start with
    pairwise-incompatible characters at the failure position, so committing to
    the first alternative that matches is faithful.
  * a class run `[...]+` followed only by `/?` — greedy maximal run, and `/` is
    outside every class, so no backtracking arises.

A matcher maps a string to the length of the match starting at its head. -/

/-- Matchers return the length of the match at the head of the input. -/
abbrev Matcher := List Char → Option Nat

/-- Literal. -/
def pLit (w : List Char) : Matcher := fun s =>
  if w.isPrefixOf s then some w.length else none

/-- Optional literal (greedy, committed — justified above). -/
def pOpt (w : List Char) : Matcher := fun s =>
  if w.isPrefixOf s then some w.length else some 0

/-- Greedy nonempty character-class run `[...]+`. -/
def pRun (p : Char → Bool) : Matcher := fun s =>
  let n := (s.takeWhile p).length
  if n = 0 then none else some n

/-- Sequencing. -/
def pSeq (a b : Matcher) : Matcher := fun s =>
  match a s with
  | none => none
  | some n =>
    match b (s.drop n) with
    | none => none
    | some m => some (n + m)

/-- Committed alternation (justified above for the patterns used). -/
def pAlt (a b : Matcher) : Matcher := fun s =>
  match a s with
  | some n => some n
  | none => b s

/-- `https?://` of the protocol-qualified patterns. -/
def schemeP : Matcher := pAlt (pLit ("https://".toList)) (pLit ("http://".toList))

/-- `(?:www\.)?` of the protocol-qualified patterns. -/
def wwwP : Matcher := pOpt ("www.".toList)

/-- The class `[a-zA-Z0-9_.]` (instagram handles, tiktok handles). -/
def handleDotChar (c : Char) : Bool := isAlnum c || c = '_' || c = '.'

/-- The class `[a-zA-Z0-9_-]` (youtube ids and handles). -/
def ytChar (c : Char) : Bool := isAlnum c || c = '_' || c = '-'

/-- The class `[a-zA-Z0-9_]` (twitter/x handles). -/
def xChar (c : Char) : Bool := isAlnum c || c = '_'

/-- The class `[a-zA-Z0-9.]` (facebook handles). -/
def fbChar (c : Char) : Bool := isAlnum c || c = '.'

/-- Trailing `/?`. -/
def tailSlash : Matcher := pOpt ['/']

/-- `/[a-zA-Z0-9_.]+/?` -/
def instaPath : Matcher := pSeq (pLit ['/']) (pSeq (pRun handleDotChar) tailSlash)

/-- `https?://(?:www\.)?instagram\.com/[a-zA-Z0-9_.]+/?` -/
def instaProto : Matcher :=
  pSeq schemeP (pSeq wwwP (pSeq (pLit ("instagram.com".toList)) instaPath))

/-- `instagram\.com/[a-zA-Z0-9_.]+/?` -/
def instaBare : Matcher := pSeq (pLit ("instagram.com".toList)) instaPath

/-- `/@[a-zA-Z0-9_.]+/?` -/
def tiktokPath : Matcher := pSeq (pLit ("/@".toList)) (pSeq (pRun handleDotChar) tailSlash)

/-- `https?://(?:www\.)?tiktok\.com/@[a-zA-Z0-9_.]+/?` -/
def tiktokProto : Matcher :=
  pSeq schemeP (pSeq wwwP (pSeq (pLit ("tiktok.com".toList)) tiktokPath))

/-- `tiktok\.com/@[a-zA-Z0-9_.]+/?` -/
def tiktokBare : Matcher := pSeq (pLit ("tiktok.com".toList)) tiktokPath

/-- `/(?:channel|user|c)/[a-zA-Z0-9_-]+/?` -/
def ytAPath : Matcher :=
  pSeq (pAlt (pLit ("/channel/".toList)) (pAlt (pLit ("/user/".toList)) (pLit ("/c/".toList))))
    (pSeq (pRun ytChar) tailSlash)

/-- `/@[a-zA-Z0-9_-]+/?` -/
def ytBPath : Matcher := pSeq (pLit ("/@".toList)) (pSeq (pRun ytChar) tailSlash)

/-- `https?://(?:www\.)?youtube\.com/(?:channel|user|c)/[a-zA-Z0-9_-]+/?` -/
def ytProtoA : Matcher :=
  pSeq schemeP (pSeq wwwP (pSeq (pLit ("youtube.com".toList)) ytAPath))

/-- `https?://(?:www\.)?youtube\.com/@[a-zA-Z0-9_-]+/?` -/
def ytProtoB : Matcher :=
  pSeq schemeP (pSeq wwwP (pSeq (pLit ("youtube.com".toList)) ytBPath))

/-- `youtube\.com/(?:channel|user|c)/[a-zA-Z0-9_-]+/?` -/
def ytBareA : Matcher := pSeq (pLit ("youtube.com".toList)) ytAPath

/-- `youtube\.com/@[a-zA-Z0-9_-]+/?` -/
def ytBareB : Matcher := pSeq (pLit ("youtube.com".toList)) ytBPath

/-- `(?:twitter|x)\.com` -/
def xDomain : Matcher := pSeq (pAlt (pLit ("twitter".toList)) (pLit ['x'])) (pLit (".com".toList))

/-- `/[a-zA-Z0-9_]+/?` -/
def xPath : Matcher := pSeq (pLit ['/']) (pSeq (pRun xChar) tailSlash)

/-- `https?://(?:www\.)?(?:twitter|x)\.com/[a-zA-Z0-9_]+/?` -/
def xProto : Matcher := pSeq schemeP (pSeq wwwP (pSeq xDomain xPath))

/-- `(?:twitter|x)\.com/[a-zA-Z0-9_]+/?` -/
def xBare : Matcher := pSeq xDomain xPath

/-- `/[a-zA-Z0-9.]+/?` -/
def fbPath : Matcher := pSeq (pLit ['/']) (pSeq (pRun fbChar) tailSlash)

/-- `https?://(?:www\.)?facebook\.com/[a-zA-Z0-9.]+/?` -/
def fbProto : Matcher :=
  pSeq schemeP (pSeq wwwP (pSeq (pLit ("facebook.com".toList)) fbPath))

/-- `facebook\.com/[a-zA-Z0-9.]+/?` -/
def fbBare : Matcher := pSeq (pLit ("facebook.com".toList)) fbPath

/-- `pattern.findall(text)[0]`: the leftmost match of the pattern
(`None` when `findall` is empty, i.e. the `if matches:` guard fails). -/
def firstMatch (m : Matcher) : List Char → Option (List Char)
  | [] => none
  | c :: cs =>
    match m (c :: cs) with
    | some n => some ((c :: cs).take n)
    | none => firstMatch m cs

/-- The per-platform ordered pattern lists of `sns_patterns` (lines 64-88):
protocol-qualified form(s) first, then bare-domain form(s). -/
def instagramPatterns : List Matcher := [instaProto, instaBare]

/-- tiktok patterns, protocol form first. -/
def tiktokPatterns : List Matcher := [tiktokProto, tiktokBare]

/-- youtube patterns: two protocol forms, then two bare forms. -/
def youtubePatterns : List Matcher := [ytProtoA, ytProtoB, ytBareA, ytBareB]

/-- x/twitter patterns, protocol form first. -/
def xPatterns : List Matcher := [xProto, xBare]

/-- facebook patterns, protocol form first. -/
def facebookPatterns : List Matcher := [fbProto, fbBare]

/-- `if not url.startswith('http'): url = 'https://' + url` (lines 283-285). -/
def normalizeUrl (u : List Char) : List Char :=
  if u.take 4 = "http".toList then u else "https://".toList ++ u

/-- The inner loop of `_extract_sns_urls` for one platform: try the patterns in
order; on the first one whose `findall` is nonempty, take its first match,
normalize, and `break`. -/
def pickSns : List Matcher → List Char → List Char
  | [], _ => []
  | p :: ps, text =>
    match firstMatch p text with
    | some u => normalizeUrl u
    | none => pickSns ps text

/-- The per-platform URL dictionary (keys `instagram, tiktok, youtube, x,
facebook`, value `''` = not found, modelled as `[]`). -/
structure SnsUrls where
  instagram : List Char
  tiktok : List Char
  youtube : List Char
  x : List Char
  facebook : List Char
deriving DecidableEq

/-- `_extract_sns_urls` (lines 257-294).  The source iterates the
`sns_patterns` dict and writes each platform's result under its own key
(`x_twitter` under `'x'`), so the loop is this record of independent lookups. -/
def extract_sns_urls (text : List Char) : SnsUrls where
  instagram := pickSns instagramPatterns text
  tiktok := pickSns tiktokPatterns text
  youtube := pickSns youtubePatterns text
  x := pickSns xPatterns text
  facebook := pickSns facebookPatterns text

/-! ### `_extract_sns_urls_from_links` (lines 296-340)

```python
for link in links:
    href = link.get('href', '')
    if 'instagram.com' in href: sns_urls['instagram'] = href
    elif 'tiktok.com' in href: sns_urls['tiktok'] = href
    elif 'youtube.com' in href or 'youtu.be' in href: sns_urls['youtube'] = href
    elif 'twitter.com' in href or 'x.com' in href: sns_urls['x'] = href
    elif 'facebook.com' in href: sns_urls['facebook'] = href
```
The page's anchor hrefs, in document order, are the input list. -/

/-- Python's substring test `needle in hay`. -/
def pyIn (needle hay : List Char) : Bool :=
  hay.tails.any (fun t => needle.isPrefixOf t)

/-- The one-step body of the href loop. -/
def linkStep (acc : SnsUrls) (href : List Char) : SnsUrls :=
  if pyIn ("instagram.com".toList) href then { acc with instagram := href }
  else if pyIn ("tiktok.com".toList) href then { acc with tiktok := href }
  else if pyIn ("youtube.com".toList) href || pyIn ("youtu.be".toList) href then
    { acc with youtube := href }
  else if pyIn ("twitter.com".toList) href || pyIn ("x.com".toList) href then
    { acc with x := href }
  else if pyIn ("facebook.com".toList) href then { acc with facebook := href }
  else acc

/-- `_extract_sns_urls_from_links`: fold the `elif` chain over the hrefs. -/
def extract_sns_urls_from_links (links : List (List Char)) : SnsUrls :=
  links.foldl linkStep ⟨[], [], [], [], []⟩

/-- The five platforms, used to state per-platform properties of the scans. -/
inductive Platform where
  | instagram
  | tiktok
  | youtube
  | x
  | facebook
deriving DecidableEq

/-- Field selector for `SnsUrls`. -/
def SnsUrls.get (s : SnsUrls) : Platform → List Char
  | .instagram => s.instagram
  | .tiktok => s.tiktok
  | .youtube => s.youtube
  | .x => s.x
  | .facebook => s.facebook

/-- The platform an anchor href is attributed to by the `elif` chain: the first
platform, in the fixed order instagram, tiktok, youtube, twitter/x, facebook,
whose domain substring occurs in the href. -/
def classifyHref (href : List Char) : Option Platform :=
  if pyIn ("instagram.com".toList) href then some .instagram
  else if pyIn ("tiktok.com".toList) href then some .tiktok
  else if pyIn ("youtube.com".toList) href || pyIn ("youtu.be".toList) href then some .youtube
  else if pyIn ("twitter.com".toList) href || pyIn ("x.com".toList) href then some .x
  else if pyIn ("facebook.com".toList) href then some .facebook
  else none

/-! ### Records and the pipeline

The candidate/contact record is the dict built in `search_google` (lines
136-148); strings are `List Char`.  The fetch (`self.session.get`, the
encoding handling, and the BeautifulSoup parse) is modelled as an oracle
producing the three artifacts the extractor consumes: the visible text
(`soup.get_text()` after `script`/`style` removal), the raw markup
(`response.text`) and the anchor hrefs in document order.  A fetch result of
`none` models the `except` path (timeout, connection error or the
`raise_for_status` on a non-success status): the source logs a warning and
returns the record unchanged.  Python's `list(set(...))` enumerates the
distinct elements in an unspecified order; it is modelled as an oracle
constrained by `ValidDedup`. -/

/-- Candidate/contact record (the dict of `search_google`). -/
structure Record where
  company_name : List Char
  website_url : List Char
  title : List Char
  snippet : List Char
  instagram_url : List Char
  tiktok_url : List Char
  youtube_url : List Char
  x_url : List Char
  facebook_url : List Char
  email : List Char
  source : List Char
deriving DecidableEq

/-- The formatted result built for each search item (lines 136-148): all
contact-signal fields start empty and `company_name` is derived from the
title. -/
def mkCandidate (title url snippet : List Char) : Record where
  company_name := extract_company_name title
  website_url := url
  title := title
  snippet := snippet
  instagram_url := []
  tiktok_url := []
  youtube_url := []
  x_url := []
  facebook_url := []
  email := []
  source := "Google Search".toList

/-- The fetched-and-parsed page artifacts consumed by the extractor. -/
structure Page where
  text : List Char
  html : List Char
  links : List (List Char)
deriving DecidableEq

/-- The fetch oracle; `none` is the caught failure path. -/
abbrev Fetch := List Char → Option Page

/-- An oracle for the order `list(set(...))` enumerates distinct elements in. -/
abbrev DedupOrd := List (List Char) → List (List Char)

/-- What every run of `list(set(xs))` satisfies: a duplicate-free enumeration
of exactly the elements of `xs`. -/
def ValidDedup (f : DedupOrd) : Prop :=
  ∀ xs, (f xs).Nodup ∧ ∀ a, a ∈ f xs ↔ a ∈ xs

/-- `_extract_emails` (lines 238-255): `if not text: return []`, then
`findall` and `list(set(...))`. -/
def extract_emails (ord : DedupOrd) (text : List Char) : List (List Char) :=
  if text = [] then [] else ord (emailFindall text)

/-- `sns_urls.update(other)` where both dicts carry all five platform keys:
every entry of the receiver is overwritten by the argument's entry
(including empty-string entries). -/
def dictUpdate (_old new : SnsUrls) : SnsUrls where
  instagram := new.instagram
  tiktok := new.tiktok
  youtube := new.youtube
  x := new.x
  facebook := new.facebook

/-- The body of the `try` block of `extract_contact_info` (lines 217-231)
given the fetched artifacts:
```python
emails = self._extract_emails(text)
emails.extend(self._extract_emails(html_source))
if emails: result['email'] = emails[0]
sns_urls = self._extract_sns_urls(html_source)
sns_urls.update(self._extract_sns_urls_from_links(soup))
for sns_type, url in sns_urls.items():
    if url: result[sns_type + '_url'] = url
```
The final loop writes each key at most once, so it is the simultaneous
conditional update below. -/
def extractFromPage (ord : DedupOrd) (r : Record) (page : Page) : Record :=
  let emails := extract_emails ord page.text ++ extract_emails ord page.html
  let sns := dictUpdate (extract_sns_urls page.html) (extract_sns_urls_from_links page.links)
  { r with
    email := match emails with
      | [] => r.email
      | e :: _ => e
    instagram_url := if sns.instagram = [] then r.instagram_url else sns.instagram
    tiktok_url := if sns.tiktok = [] then r.tiktok_url else sns.tiktok
    youtube_url := if sns.youtube = [] then r.youtube_url else sns.youtube
    x_url := if sns.x = [] then r.x_url else sns.x
    facebook_url := if sns.facebook = [] then r.facebook_url else sns.facebook }

/-- `extract_contact_info` (lines 178-236): empty URL returns the record
as-is; a failed fetch (the `except` branch) returns the record as-is;
otherwise the `try`-body updates are applied. -/
def extract_contact_info (fetch : Fetch) (ord : DedupOrd) (r : Record) : Record :=
  if r.website_url = [] then r
  else
    match fetch r.website_url with
    | none => r
    | some page => extractFromPage ord r page

/-- `process_search_results` (lines 342-379): iterate
`results[:max_pages_to_scan]`; for each element with a non-empty
`website_url` run `extract_contact_info` on a copy, else append as-is.
Progress reporting and the inter-candidate sleep have no effect on the
output list. -/
def process_search_results (fetch : Fetch) (ord : DedupOrd)
    (results : List Record) (max_pages_to_scan : Nat) : List Record :=
  (results.take max_pages_to_scan).map fun r =>
    if r.website_url = [] then r else extract_contact_info fetch ord r

/-! ### Concrete oracles and inputs used by witnesses and counterexamples -/

/-- A fetch oracle for which every fetch fails. -/
def noFetch : Fetch := fun _ => none

/-- A set-order oracle that keeps scan order (used only where no `ValidDedup`
hypothesis is needed, e.g. to evaluate the pipeline on concrete data). -/
def idOrd : DedupOrd := fun xs => xs

/-- Canonical de-duplication: keep the first occurrence of each element. -/
def firstDedup : DedupOrd := fun xs => xs.dedup

/-- A de-duplication enumerating the distinct elements in reversed order —
one of the orders `list(set(...))` is free to produce. -/
def revDedup : DedupOrd := fun xs => xs.dedup.reverse

/-- A candidate without a website URL. -/
def candA : Record := mkCandidate ("A".toList) [] []

/-- A second candidate without a website URL. -/
def candB : Record := mkCandidate ("B".toList) [] []

/-- A candidate whose website URL is non-empty. -/
def candU : Record := mkCandidate ("T".toList) ("http://a.example".toList) ("s".toList)

/-- A page whose raw markup contains a bare instagram profile URL but which
has no anchor elements. -/
def bugPage : Page := ⟨[], "see instagram.com/acme ok".toList, []⟩

/-- A page whose visible text holds two distinct email addresses. -/
def mailPage : Page := ⟨"a@b.co z@y.co".toList, [], []⟩

/-- An anchor href attributed to tiktok by the elif chain. -/
def hrefT1 : List Char := "tiktok.com/a".toList

/-- An anchor href containing the tiktok domain substring but attributed to
instagram by the elif chain (instagram is checked first). -/
def hrefT2 : List Char := "instagram.com/tiktok.com".toList

/-- Field update for `SnsUrls`, used to characterise the href loop. -/
def SnsUrls.set (s : SnsUrls) (p : Platform) (v : List Char) : SnsUrls :=
  match p with
  | .instagram => { s with instagram := v }
  | .tiktok => { s with tiktok := v }
  | .youtube => { s with youtube := v }
  | .x => { s with x := v }
  | .facebook => { s with facebook := v }

/-! ### Claim C7 — the email regex

`emailOf lp d t` is the canonical shape `local@domain.tld`; `CanonicalEmail`
states the class constraints of `email_pattern` (ASCII local part, dotted
domain, alphabetic TLD of length at least 2). -/

/-- Assemble `local@domain.tld`. -/
def emailOf (lp d t : List Char) : List Char := lp ++ '@' :: (d ++ '.' :: t)

/-- The canonical email syntax of the spec. -/
def CanonicalEmail (m : List Char) : Prop :=
  ∃ lp d t, m = emailOf lp d t ∧ lp ≠ [] ∧ (∀ c ∈ lp, isLocalChar c = true) ∧
    d ≠ [] ∧ (∀ c ∈ d, isDomainChar c = true) ∧
    (∀ c ∈ t, isAsciiAlpha c = true) ∧ 2 ≤ t.length

/-- The character before an embedded email must not glue to it: it may not be
a local-part character (it would extend the local part) nor `@`. -/
def lBoundary (l : List Char) : Bool :=
  match l.getLast? with
  | none => true
  | some c => !isLocalChar c && !(c = '@')

/-- The character after an embedded email must not glue to it: it may not be
a domain character (it would extend the domain or the TLD). -/
def rBoundary (r : List Char) : Bool :=
  match r.head? with
  | none => true
  | some c => !isDomainChar c

/-! ### General helper lemmas -/

theorem emailFindallAux_fuel : ∀ (f g : Nat) (s : List Char),
    s.length ≤ f → s.length ≤ g → emailFindallAux f s = emailFindallAux g s
  | 0, 0, _, _, _ => rfl
  | 0, _ + 1, s, hf, _ => by
    have : s = [] := List.eq_nil_of_length_eq_zero (Nat.le_zero.mp hf)
    subst this; rfl
  | _ + 1, 0, s, _, hg => by
    have : s = [] := List.eq_nil_of_length_eq_zero (Nat.le_zero.mp hg)
    subst this; rfl
  | _ + 1, _ + 1, [], _, _ => rfl
  | f + 1, g + 1, c :: cs, hf, hg => by
    simp only [List.length_cons, Nat.succ_le_succ_iff] at hf hg
    simp only [emailFindallAux]
    cases emailMatchAt (c :: cs) with
    | none => exact emailFindallAux_fuel f g cs hf hg
    | some n =>
      have hd : (cs.drop (n - 1)).length ≤ cs.length := by
        simp only [List.length_drop]; omega
      exact congrArg _ (emailFindallAux_fuel f g _ (hd.trans hf) (hd.trans hg))

theorem emailFindall_nil : emailFindall [] = [] := rfl

theorem emailFindall_cons (c : Char) (cs : List Char) :
    emailFindall (c :: cs) =
      match emailMatchAt (c :: cs) with
      | some n => (c :: cs).take n :: emailFindall (cs.drop (n - 1))
      | none => emailFindall cs := by
  show emailFindallAux (cs.length + 1) (c :: cs) = _
  simp only [emailFindallAux]
  cases emailMatchAt (c :: cs) with
  | none => rfl
  | some n =>
    refine congrArg _ (emailFindallAux_fuel _ _ _ ?_ le_rfl)
    simp only [List.length_drop]; omega


theorem mem_dropWhile_imp {p : Char → Bool} {x : Char} :
    ∀ {l : List Char}, x ∈ l.dropWhile p → x ∈ l := by
  intro l
  induction l with
  | nil => simp [List.dropWhile]
  | cons c cs ih =>
    rw [List.dropWhile_cons]
    split
    · exact fun h => List.mem_cons_of_mem c (ih h)
    · exact id

theorem mem_pyStrip_imp {x : Char} {l : List Char} (h : x ∈ pyStrip l) : x ∈ l := by
  unfold pyStrip at h
  rw [List.mem_reverse] at h
  have h1 := mem_dropWhile_imp h
  rw [List.mem_reverse] at h1
  exact mem_dropWhile_imp h1

theorem mem_pyStrip_of_mem {x : Char} {l : List Char} (hx : pySpace x = false)
    (h : x ∈ l) : x ∈ pyStrip l := by
  unfold pyStrip
  rw [List.mem_reverse]
  have key : ∀ (m : List Char), x ∈ m → x ∈ m.dropWhile pySpace := by
    intro m
    induction m with
    | nil => exact id
    | cons c cs ih =>
      intro hm
      rw [List.dropWhile_cons]
      split
      · rcases List.mem_cons.mp hm with rfl | hm'
        · simp_all
        · exact ih hm'
      · exact hm
  refine key _ ?_
  rw [List.mem_reverse]
  exact key _ h

theorem mem_takeWhile_mem {p : Char → Bool} {x : Char} :
    ∀ {l : List Char}, x ∈ l.takeWhile p → x ∈ l := by
  intro l
  induction l with
  | nil => simp [List.takeWhile]
  | cons c cs ih =>
    rw [List.takeWhile_cons]
    split
    · intro h
      rcases List.mem_cons.mp h with rfl | h'
      · exact List.mem_cons_self _ _
      · exact List.mem_cons_of_mem c (ih h')
    · simp

theorem mem_splitFirst_imp {sep x : Char} {l : List Char} (h : x ∈ splitFirst sep l) :
    x ∈ l ∧ x ≠ sep := by
  refine ⟨mem_takeWhile_mem h, by simpa using List.mem_takeWhile_imp h⟩

theorem isPrefixOf_ex : ∀ (w s : List Char), w.isPrefixOf s = true ↔ ∃ t, s = w ++ t
  | [], s => by simp [List.isPrefixOf]
  | a :: w, [] => by simp [List.isPrefixOf]
  | a :: w, b :: s => by
    simp only [List.isPrefixOf, Bool.and_eq_true, beq_iff_eq, isPrefixOf_ex w s,
      List.cons_append]
    constructor
    · rintro ⟨rfl, t, rfl⟩; exact ⟨t, rfl⟩
    · rintro ⟨t, h⟩
      cases h
      exact ⟨rfl, t, rfl⟩

/-! ### Properties of the de-duplication oracles -/

theorem validDedup_firstDedup : ValidDedup firstDedup :=
  fun xs => ⟨xs.nodup_dedup, fun _ => List.mem_dedup⟩

theorem validDedup_revDedup : ValidDedup revDedup :=
  fun xs => ⟨List.nodup_reverse.mpr xs.nodup_dedup,
    fun a => by simp [revDedup, List.mem_reverse, List.mem_dedup]⟩

theorem validDedup_nil {f : DedupOrd} (hf : ValidDedup f) : f [] = [] := by
  rcases List.eq_nil_or_concat (f []) with h | ⟨t, a, h⟩
  · exact h
  · exfalso
    have : a ∈ f [] := by simp [h]
    simpa using ((hf []).2 a).mp this

theorem validDedup_ne_nil {f : DedupOrd} (hf : ValidDedup f) {xs : List (List Char)}
    (h : xs ≠ []) : f xs ≠ [] := by
  rcases List.exists_mem_of_ne_nil xs h with ⟨a, ha⟩
  exact List.ne_nil_of_mem (((hf xs).2 a).mpr ha)

theorem validDedup_singleton {f : DedupOrd} (hf : ValidDedup f) (e : List Char) :
    f [e] = [e] := by
  have hmem : e ∈ f [e] := ((hf [e]).2 e).mpr (List.mem_singleton.mpr rfl)
  have hall : ∀ x ∈ f [e], x = e := fun x hx => by
    simpa using ((hf [e]).2 x).mp hx
  have hnd := (hf [e]).1
  cases hfe : f [e] with
  | nil => rw [hfe] at hmem; simp at hmem
  | cons x t =>
    have hx : x = e := hall x (by simp [hfe])
    have ht : t = [] := by
      cases t with
      | nil => rfl
      | cons y u =>
        exfalso
        have hy : y = e := hall y (by simp [hfe])
        rw [hfe] at hnd
        rw [List.nodup_cons] at hnd
        exact hnd.1 (by simp [hx, hy])
    simp [hx, ht]

/-! ### Claim C9 — the extractor's frame -/

/-- Claim C9 (confirmed): for every fetch outcome, set order and candidate
record, `extract_contact_info` leaves `title`, `website_url`, `snippet`,
`company_name` (the display name) and `source` unchanged; only the
contact-signal fields (`email` and the five per-platform URL fields) are
ever written. -/
theorem claim9_extractor_frame (fetch : Fetch) (ord : DedupOrd) (r : Record) :
    (extract_contact_info fetch ord r).title = r.title ∧
    (extract_contact_info fetch ord r).website_url = r.website_url ∧
    (extract_contact_info fetch ord r).snippet = r.snippet ∧
    (extract_contact_info fetch ord r).company_name = r.company_name ∧
    (extract_contact_info fetch ord r).source = r.source := by
  unfold extract_contact_info
  split
  · exact ⟨rfl, rfl, rfl, rfl, rfl⟩
  · cases fetch r.website_url with
    | none => exact ⟨rfl, rfl, rfl, rfl, rfl⟩
    | some page => exact ⟨rfl, rfl, rfl, rfl, rfl⟩

/-! ### Claim C1 — the orchestrator's scan budget -/

theorem process_search_results_get? (fetch : Fetch) (ord : DedupOrd)
    (results : List Record) (limit i : Nat) (r : Record)
    (h : (results.take limit).get? i = some r) :
    (process_search_results fetch ord results limit).get? i =
      some (if r.website_url = [] then r else extract_contact_info fetch ord r) := by
  unfold process_search_results
  rw [List.get?_map, h, Option.map_some']

/-- Claim C1 (corrected): the orchestrator processes at most `limit`
candidates, but candidates at positions `limit` and beyond are dropped, not
passed through: the output is the processed `limit`-prefix, of length
`min limit (length of input)`. -/
theorem claim1_orchestrator_budget (fetch : Fetch) (ord : DedupOrd)
    (results : List Record) (limit : Nat) :
    (process_search_results fetch ord results limit).length = min limit results.length ∧
    (process_search_results fetch ord results limit).length ≤ limit ∧
    ∀ i r, (results.take limit).get? i = some r →
      (process_search_results fetch ord results limit).get? i =
        some (if r.website_url = [] then r else extract_contact_info fetch ord r) := by
  refine ⟨by simp [process_search_results], by simp [process_search_results], ?_⟩
  intro i r h
  exact process_search_results_get? fetch ord results limit i r h

/-- Closed instance of `claim1_orchestrator_budget` discharging its
hypothesis at a concrete input. -/
theorem claim1_orchestrator_budget_witness :
    (process_search_results noFetch idOrd [candA, candB] 1).get? 0 = some candA :=
  by
    have h := (claim1_orchestrator_budget noFetch idOrd [candA, candB] 1).2.2 0 candA
      (by decide)
    rw [h]
    decide

/-- Counterexample to claim C1 as stated: with two input candidates and
`limit = 1` the output has length 1, not the input length 2 — the candidate
beyond the limit is not passed through into the output. -/
theorem claim1_counterexample :
    (process_search_results noFetch idOrd [candA, candB] 1).length ≠
      ([candA, candB] : List Record).length := by
  decide

/-! ### Claim C4 — fetch-failure isolation -/

/-- Claim C4 (confirmed): a processed candidate (any position of the
`limit`-prefix) whose URL is non-empty and whose fetch fails is passed into
the output unmodified, the output keeps one entry per processed candidate,
and every other processed candidate is still processed; a candidate built by
the search step has all signal fields empty, so the failed record's signal
fields are empty.  (The `except` branch of `extract_contact_info` catches
every exception of the fetch-and-parse block, which the embedding renders as
the total `Fetch` oracle: no exception escapes.) -/
theorem claim4_fetch_failure_isolated (fetch : Fetch) (ord : DedupOrd)
    (results : List Record) (limit i : Nat) (r : Record)
    (hget : (results.take limit).get? i = some r)
    (hurl : r.website_url ≠ [])
    (hfail : fetch r.website_url = none) :
    (process_search_results fetch ord results limit).get? i = some r ∧
    (process_search_results fetch ord results limit).length = (results.take limit).length ∧
    (∀ j r', (results.take limit).get? j = some r' →
      (process_search_results fetch ord results limit).get? j =
        some (if r'.website_url = [] then r' else extract_contact_info fetch ord r')) ∧
    (∀ t u s, r = mkCandidate t u s →
      r.email = [] ∧ r.instagram_url = [] ∧ r.tiktok_url = [] ∧
      r.youtube_url = [] ∧ r.x_url = [] ∧ r.facebook_url = []) := by
  refine ⟨?_, by simp [process_search_results], ?_, ?_⟩
  · have hr : extract_contact_info fetch ord r = r := by
      unfold extract_contact_info
      rw [if_neg hurl, hfail]
    rw [process_search_results_get? fetch ord results limit i r hget, if_neg hurl, hr]
  · intro j r' h
    exact process_search_results_get? fetch ord results limit j r' h
  · rintro t u s rfl
    exact ⟨rfl, rfl, rfl, rfl, rfl, rfl⟩

/-- Closed instance of `claim4_fetch_failure_isolated`: a concrete candidate
whose fetch fails comes out of the pipeline unmodified. -/
theorem claim4_fetch_failure_isolated_witness :
    (process_search_results noFetch idOrd [candU] 1).get? 0 = some candU :=
  (claim4_fetch_failure_isolated noFetch idOrd [candU] 1 0 candU (by decide)
    (by decide) rfl).1

/-! ### Claim C10 — the anchor href scan -/

theorem SnsUrls.get_set_self (s : SnsUrls) (p : Platform) (v : List Char) :
    (s.set p v).get p = v := by
  cases p <;> rfl

theorem SnsUrls.get_set_ne (s : SnsUrls) (p q : Platform) (v : List Char) (h : q ≠ p) :
    (s.set q v).get p = s.get p := by
  cases p <;> cases q <;> first
  | rfl
  | exact absurd rfl h

theorem linkStep_eq_classify (acc : SnsUrls) (href : List Char) :
    linkStep acc href =
      match classifyHref href with
      | none => acc
      | some p => acc.set p href := by
  unfold linkStep classifyHref
  split_ifs <;> rfl

theorem foldl_linkStep_get (p : Platform) :
    ∀ (links : List (List Char)) (acc : SnsUrls),
      (links.foldl linkStep acc).get p =
        (links.filter (fun h => decide (classifyHref h = some p))).getLastD (acc.get p)
  | [], acc => rfl
  | href :: t, acc => by
    rw [List.foldl_cons, foldl_linkStep_get p t, linkStep_eq_classify]
    cases hc : classifyHref href with
    | none =>
      rw [List.filter_cons_of_neg]
      simp [hc]
    | some q =>
      by_cases hq : q = p
      · subst hq
        rw [List.filter_cons_of_pos (by simp [hc]), List.getLastD_cons,
          SnsUrls.get_set_self]
      · rw [List.filter_cons_of_neg (by simp [hc, hq]),
          SnsUrls.get_set_ne acc p q href hq]

theorem SnsUrls.get_empty (p : Platform) : (⟨[], [], [], [], []⟩ : SnsUrls).get p = [] := by
  cases p <;> rfl

/-- Claim C10 (corrected): for every anchor list and platform, the platform's
entry of the href scan is the href of the last anchor *attributed to* that
platform by the elif chain (first matching platform wins per anchor, in the
fixed order instagram, tiktok, youtube, twitter/x, facebook), stored verbatim
— no `https://` normalization and no host validation, any href containing the
domain substring qualifies for attribution.  An anchor containing an
earlier-checked platform's domain substring is not attributed to a later
platform (see the counterexample). -/
theorem claim10_links_last_classified_wins (links : List (List Char)) (p : Platform) :
    (extract_sns_urls_from_links links).get p =
      (links.filter (fun h => decide (classifyHref h = some p))).getLastD [] := by
  rw [extract_sns_urls_from_links, foldl_linkStep_get p links, SnsUrls.get_empty]

/-- Counterexample to claim C10 as stated: the href
`instagram.com/tiktok.com` contains the tiktok domain substring and is the
last such anchor, yet the tiktok slot keeps the earlier anchor — the elif
chain attributes the last anchor to instagram. -/
theorem claim10_counterexample :
    pyIn ("tiktok.com".toList) hrefT2 = true ∧
    (extract_sns_urls_from_links [hrefT1, hrefT2]).tiktok = hrefT1 ∧
    hrefT1 ≠ hrefT2 := by
  refine ⟨by decide, by decide, by decide⟩

/-! ### Claim C8 — idempotence of the display-name derivation -/

theorem companyStep_subset (c : List Char) (sep x : Char)
    (h : x ∈ (if sep ∈ c then pyStrip (splitFirst sep c) else c)) : x ∈ c := by
  split at h
  · exact (mem_splitFirst_imp (mem_pyStrip_imp h)).1
  · exact h

theorem companyFold_subset :
    ∀ (L : List Char) (c : List Char) (x : Char),
      x ∈ L.foldl (fun cn sep => if sep ∈ cn then pyStrip (splitFirst sep cn) else cn) c →
      x ∈ c
  | [], _, _, h => h
  | s :: L, c, x, h =>
    companyStep_subset c s x (companyFold_subset L _ x h)

theorem companyFold_not_mem :
    ∀ (L : List Char) (c : List Char) (s : Char), s ∈ L →
      s ∉ L.foldl (fun cn sep => if sep ∈ cn then pyStrip (splitFirst sep cn) else cn) c := by
  intro L
  induction L with
  | nil => intro c s h; simp at h
  | cons s₀ L ih =>
    intro c s hs hmem
    rw [List.foldl_cons] at hmem
    rcases List.mem_cons.mp hs with rfl | hs'
    · have h₀ : s ∉ (if s ∈ c then pyStrip (splitFirst s c) else c) := by
        split
        · intro hin
          exact (mem_splitFirst_imp (mem_pyStrip_imp hin)).2 rfl
        · assumption
      exact h₀ (companyFold_subset L _ s hmem)
    · exact ih _ s hs' hmem

theorem companyFold_id :
    ∀ (L : List Char) (c : List Char), (∀ s ∈ L, s ∉ c) →
      L.foldl (fun cn sep => if sep ∈ cn then pyStrip (splitFirst sep cn) else cn) c = c
  | [], _, _ => rfl
  | s :: L, c, h => by
    rw [List.foldl_cons, if_neg (h s (List.mem_cons_self s L))]
    exact companyFold_id L c fun x hx => h x (List.mem_cons_of_mem s hx)

/-- Claim C8 (confirmed): the display-name derivation is idempotent — its
result contains no separator, so a second pass leaves it unchanged. -/
theorem claim8_company_name_idempotent (title : List Char) :
    extract_company_name (extract_company_name title) = extract_company_name title :=
  companyFold_id separators (extract_company_name title)
    fun s hs => companyFold_not_mem separators title s hs

/-! ### Claim C3 — which email is chosen -/

theorem extractFromPage_email (ord : DedupOrd) (r : Record) (page : Page) :
    (extractFromPage ord r page).email =
      match extract_emails ord page.text ++ extract_emails ord page.html with
      | [] => r.email
      | e :: _ => e := rfl

theorem extract_emails_eq (ord : DedupOrd) (t : List Char) :
    emailFindall t ≠ [] → extract_emails ord t = ord (emailFindall t) := by
  intro h
  unfold extract_emails
  rw [if_neg]
  intro ht
  subst ht
  exact h rfl

theorem extract_emails_nil {ord : DedupOrd} (hord : ValidDedup ord) (t : List Char)
    (h : emailFindall t = []) : extract_emails ord t = [] := by
  unfold extract_emails
  split
  · rfl
  · rw [h]
    exact validDedup_nil hord

/-- Claim C3 (corrected): when the visible text contains matches, the chosen
email is one of the visible-text matches (falling back to the raw-markup
matches when the visible text has none) — but which one depends on the
iteration order of `list(set(...))`; it is the first match in scan order
only in special cases such as a single distinct visible-text match. -/
theorem claim3_email_choice (ord : DedupOrd) (hord : ValidDedup ord)
    (r : Record) (page : Page) :
    (emailFindall page.text ≠ [] →
      (extractFromPage ord r page).email ∈ emailFindall page.text) ∧
    (emailFindall page.text = [] → emailFindall page.html ≠ [] →
      (extractFromPage ord r page).email ∈ emailFindall page.html) ∧
    (∀ e, emailFindall page.text = [e] → (extractFromPage ord r page).email = e) := by
  refine ⟨?_, ?_, ?_⟩
  · intro ht
    rw [extractFromPage_email, extract_emails_eq ord _ ht]
    rcases hne : ord (emailFindall page.text) with _ | ⟨e, rest⟩
    · exact absurd hne (validDedup_ne_nil hord ht)
    · have : e ∈ ord (emailFindall page.text) := by rw [hne]; exact List.mem_cons_self e rest
      simpa using ((hord (emailFindall page.text)).2 e).mp this
  · intro ht hh
    rw [extractFromPage_email, extract_emails_nil hord _ ht,
      extract_emails_eq ord _ hh, List.nil_append]
    rcases hne : ord (emailFindall page.html) with _ | ⟨e, rest⟩
    · exact absurd hne (validDedup_ne_nil hord hh)
    · have : e ∈ ord (emailFindall page.html) := by rw [hne]; exact List.mem_cons_self e rest
      simpa using ((hord (emailFindall page.html)).2 e).mp this
  · intro e he
    rw [extractFromPage_email, extract_emails_eq ord _ (by rw [he]; simp), he,
      validDedup_singleton hord e]
    rfl

/-- Closed instance of `claim3_email_choice`: with the canonical first-seen
de-duplication the chosen email on a concrete page is a visible-text match. -/
theorem claim3_email_choice_witness :
    (extractFromPage firstDedup candA mailPage).email ∈ emailFindall mailPage.text :=
  (claim3_email_choice firstDedup validDedup_firstDedup candA mailPage).1 (by decide)

/-- Counterexample to claim C3 as stated: `revDedup` is a legitimate
`list(set(...))` enumeration, yet on a page whose visible text reads
`a@b.co z@y.co` it makes the extractor choose `z@y.co`, not the first
occurrence `a@b.co` encountered when scanning the visible text. -/
theorem claim3_counterexample :
    ValidDedup revDedup ∧
    (extractFromPage revDedup candA mailPage).email = "z@y.co".toList ∧
    (emailFindall mailPage.text).head? = some ("a@b.co".toList) ∧
    "z@y.co".toList ≠ "a@b.co".toList := by
  refine ⟨validDedup_revDedup, by decide, by decide, by decide⟩

/-! ### Claim C6 — per-platform pattern selection and scheme normalization -/

theorem pSeq_some {a b : Matcher} {s : List Char} {n : Nat} (h : pSeq a b s = some n) :
    ∃ n₁ n₂, a s = some n₁ ∧ b (s.drop n₁) = some n₂ ∧ n = n₁ + n₂ := by
  unfold pSeq at h
  cases ha : a s with
  | none => simp [ha] at h
  | some n₁ =>
    simp only [ha] at h
    cases hb : b (s.drop n₁) with
    | none => simp [hb] at h
    | some n₂ =>
      simp only [hb, Option.some_inj] at h
      exact ⟨n₁, n₂, rfl, hb, h.symm⟩

theorem pLit_some {w s : List Char} {n : Nat} (h : pLit w s = some n) :
    n = w.length ∧ ∃ t, s = w ++ t := by
  unfold pLit at h
  split at h
  · next hw => exact ⟨(Option.some_inj.mp h).symm, (isPrefixOf_ex w s).mp hw⟩
  · exact absurd h (by simp)

theorem pAlt_some {a b : Matcher} {s : List Char} {n : Nat} (h : pAlt a b s = some n) :
    a s = some n ∨ b s = some n := by
  unfold pAlt at h
  cases ha : a s with
  | none => simp only [ha] at h; exact Or.inr h
  | some m =>
    simp only [ha] at h
    exact Or.inl h

theorem firstMatch_some {m : Matcher} :
    ∀ {text : List Char} {u : List Char}, firstMatch m text = some u →
      ∃ s n, m s = some n ∧ u = s.take n := by
  intro text
  induction text with
  | nil => intro u h; exact absurd h (by simp [firstMatch])
  | cons c cs ih =>
    intro u h
    rw [firstMatch] at h
    cases hm : m (c :: cs) with
    | some n =>
      rw [hm] at h
      exact ⟨c :: cs, n, hm, (Option.some_inj.mp h).symm⟩
    | none =>
      rw [hm] at h
      exact ih h

theorem take4_of_append {w t : List Char} {n : Nat} (hw : 4 ≤ w.length) (hn : 4 ≤ n) :
    (((w ++ t).take n).take 4) = w.take 4 := by
  rw [List.take_take, Nat.min_eq_left hn, List.take_append_of_le_length hw]

/-- A match of `pSeq (pLit w) k` starts with `w`, so its first four characters
are those of `w`. -/
theorem litSeq_take4 {w : List Char} {k : Matcher} {s : List Char} {n : Nat}
    (h : pSeq (pLit w) k s = some n) (hw : 4 ≤ w.length) :
    ((s.take n).take 4) = w.take 4 := by
  obtain ⟨n₁, n₂, h₁, _, rfl⟩ := pSeq_some h
  obtain ⟨rfl, t, rfl⟩ := pLit_some h₁
  exact take4_of_append hw (by omega)

/-- Case analysis of `https?://`. -/
theorem schemeP_cases {s : List Char} {n : Nat} (h : schemeP s = some n) :
    (n = 8 ∧ ∃ t, s = "https://".toList ++ t) ∨
    (n = 7 ∧ ∃ t, s = "http://".toList ++ t) := by
  rcases pAlt_some h with h' | h' <;>
    [exact Or.inl (pLit_some h'); exact Or.inr (pLit_some h')]

/-- Every match of a protocol-qualified pattern starts with `http`. -/
theorem schemeSeq_take4 {k : Matcher} {s : List Char} {n : Nat}
    (h : pSeq schemeP k s = some n) : ((s.take n).take 4) = "http".toList := by
  obtain ⟨n₁, n₂, h₁, _, rfl⟩ := pSeq_some h
  rcases schemeP_cases h₁ with ⟨rfl, t, rfl⟩ | ⟨rfl, t, rfl⟩
  · rw [take4_of_append (by decide) (by omega)]
    decide
  · rw [take4_of_append (by decide) (by omega)]
    decide

/-- Case analysis of `(?:twitter|x)\.com`. -/
theorem xDomain_cases {s : List Char} {n : Nat} (h : xDomain s = some n) :
    (n = 11 ∧ ∃ t, s = "twitter.com".toList ++ t) ∨
    (n = 5 ∧ ∃ t, s = "x.com".toList ++ t) := by
  obtain ⟨n₁, n₂, h₁, h₂, rfl⟩ := pSeq_some h
  rcases pAlt_some h₁ with h' | h' <;> obtain ⟨rfl, t, rfl⟩ := pLit_some h'
  · left
    rw [List.drop_left] at h₂
    obtain ⟨rfl, t', rfl⟩ := pLit_some h₂
    exact ⟨rfl, t', by simp⟩
  · right
    rw [List.drop_left] at h₂
    obtain ⟨rfl, t', rfl⟩ := pLit_some h₂
    exact ⟨rfl, t', by simp⟩

/-- No match of a bare-domain pattern starts with `http`. -/
theorem bare_take4_ne_http {m : Matcher}
    (hm : m ∈ ([instaBare, tiktokBare, ytBareA, ytBareB, xBare, fbBare] : List Matcher))
    {s : List Char} {n : Nat} (h : m s = some n) :
    ((s.take n).take 4) ≠ "http".toList := by
  fin_cases hm
  · rw [litSeq_take4 h (by decide)]; decide
  · rw [litSeq_take4 h (by decide)]; decide
  · rw [litSeq_take4 h (by decide)]; decide
  · rw [litSeq_take4 h (by decide)]; decide
  · obtain ⟨n₁, n₂, h₁, _, rfl⟩ := pSeq_some h
    rcases xDomain_cases h₁ with ⟨rfl, t, rfl⟩ | ⟨rfl, t, rfl⟩
    · rw [take4_of_append (by decide) (by omega)]; decide
    · rw [take4_of_append (by decide) (by omega)]; decide
  · rw [litSeq_take4 h (by decide)]; decide

/-- Claim C6 (confirmed): `_extract_sns_urls` evaluates the per-platform
ordered pattern lists (protocol-qualified forms first, then bare-domain
forms), keeps at most one URL per platform — the first pattern with a match
wins and the later patterns of that platform are skipped — and a match made
by a scheme-less (bare-domain) pattern is returned with an `https://` prefix,
while a protocol-qualified match is returned unchanged. -/
theorem claim6_sns_pattern_selection (text : List Char) :
    (extract_sns_urls text =
      ⟨pickSns instagramPatterns text, pickSns tiktokPatterns text,
        pickSns youtubePatterns text, pickSns xPatterns text,
        pickSns facebookPatterns text⟩) ∧
    (∀ (p : Matcher) (ps : List Matcher) (u : List Char),
      firstMatch p text = some u → pickSns (p :: ps) text = normalizeUrl u) ∧
    (∀ (p : Matcher) (ps : List Matcher),
      firstMatch p text = none → pickSns (p :: ps) text = pickSns ps text) ∧
    (∀ m ∈ ([instaProto, tiktokProto, ytProtoA, ytProtoB, xProto, fbProto] : List Matcher),
      ∀ u, firstMatch m text = some u → u.take 4 = "http".toList ∧ normalizeUrl u = u) ∧
    (∀ m ∈ ([instaBare, tiktokBare, ytBareA, ytBareB, xBare, fbBare] : List Matcher),
      ∀ u, firstMatch m text = some u →
        u.take 4 ≠ "http".toList ∧ normalizeUrl u = "https://".toList ++ u) := by
  refine ⟨rfl, ?_, ?_, ?_, ?_⟩
  · intro p ps u h
    show (match firstMatch p text with
      | some u => normalizeUrl u
      | none => pickSns ps text) = normalizeUrl u
    rw [h]
  · intro p ps h
    show (match firstMatch p text with
      | some u => normalizeUrl u
      | none => pickSns ps text) = pickSns ps text
    rw [h]
  · intro m hm u h
    obtain ⟨s, n, hs, rfl⟩ := firstMatch_some h
    have h4 : ((s.take n).take 4) = "http".toList := by
      fin_cases hm <;> exact schemeSeq_take4 hs
    exact ⟨h4, by unfold normalizeUrl; rw [if_pos h4]⟩
  · intro m hm u h
    obtain ⟨s, n, hs, rfl⟩ := firstMatch_some h
    have h4 : ((s.take n).take 4) ≠ "http".toList := bare_take4_ne_http hm hs
    exact ⟨h4, by unfold normalizeUrl; rw [if_neg h4]⟩

/-- Closed instance of `claim6_sns_pattern_selection`: the bare instagram
pattern's leftmost match on a concrete text wins immediately and is
normalized. -/
theorem claim6_sns_pattern_selection_witness :
    pickSns (instaBare :: []) ("x instagram.com/acme".toList) =
      normalizeUrl ("instagram.com/acme".toList) :=
  (claim6_sns_pattern_selection ("x instagram.com/acme".toList)).2.1 instaBare []
    ("instagram.com/acme".toList) (by decide)

/-! ### Claim C5 — the display-name derivation -/

theorem takeWhile_and (p q : Char → Bool) : ∀ (l : List Char),
    l.takeWhile (fun c => p c && q c) = (l.takeWhile p).takeWhile q
  | [] => rfl
  | c :: cs => by
    by_cases hp : p c
    · by_cases hq : q c
      · rw [List.takeWhile_cons_of_pos (by simp [hp, hq]),
          List.takeWhile_cons_of_pos hp, List.takeWhile_cons_of_pos hq,
          takeWhile_and p q cs]
      · rw [List.takeWhile_cons_of_neg (by simp [hq]),
          List.takeWhile_cons_of_pos hp, List.takeWhile_cons_of_neg hq]
    · rw [List.takeWhile_cons_of_neg (by simp [hp]), List.takeWhile_cons_of_neg hp,
        List.takeWhile_nil]

theorem takeWhile_congr {p q : Char → Bool} :
    ∀ {l : List Char}, (∀ c ∈ l, p c = q c) → l.takeWhile p = l.takeWhile q := by
  intro l
  induction l with
  | nil => intro _; rfl
  | cons c cs ih =>
    intro h
    have hc := h c (List.mem_cons_self c cs)
    by_cases hp : p c
    · rw [List.takeWhile_cons_of_pos hp, List.takeWhile_cons_of_pos (hc ▸ hp),
        ih fun x hx => h x (List.mem_cons_of_mem c hx)]
    · rw [List.takeWhile_cons_of_neg hp, List.takeWhile_cons_of_neg (hc ▸ hp)]

theorem takeWhile_length_eq {p : Char → Bool} :
    ∀ {l : List Char}, (l.takeWhile p).length = l.length → l.takeWhile p = l := by
  intro l
  induction l with
  | nil => intro _; rfl
  | cons c cs ih =>
    intro h
    by_cases hp : p c
    · rw [List.takeWhile_cons_of_pos hp] at h ⊢
      rw [ih (by simpa using h)]
    · rw [List.takeWhile_cons_of_neg hp] at h
      simp at h

theorem dropWhile_idem (p : Char → Bool) :
    ∀ (l : List Char), (l.dropWhile p).dropWhile p = l.dropWhile p
  | [] => rfl
  | c :: cs => by
    by_cases hp : p c
    · rw [List.dropWhile_cons_of_pos hp, dropWhile_idem p cs]
    · rw [List.dropWhile_cons_of_neg hp, List.dropWhile_cons_of_neg hp]

theorem pyStrip_space_append {a : List Char} (w : List Char)
    (ha : ∀ c ∈ a, pySpace c = true) : pyStrip (a ++ w) = pyStrip w := by
  unfold pyStrip
  rw [List.dropWhile_append_of_pos ha]

theorem pyStrip_append_space (w : List Char) {b : List Char}
    (hb : ∀ c ∈ b, pySpace c = true) : pyStrip (w ++ b) = pyStrip w := by
  unfold pyStrip
  rw [List.dropWhile_append]
  split
  · next h =>
    have hw : w.dropWhile pySpace = [] := by
      cases hdw : w.dropWhile pySpace with
      | nil => rfl
      | cons x t => rw [hdw] at h; simp at h
    rw [hw]
    have : b.dropWhile pySpace = [] := List.dropWhile_eq_nil_iff.mpr hb
    rw [this]
  · rw [List.reverse_append, List.dropWhile_append_of_pos
      (fun c hc => hb c (List.mem_reverse.mp hc))]

/-- A list with no leading whitespace splits as its strip followed by
trailing whitespace. -/
theorem pyStrip_core (u : List Char) (h : u.dropWhile pySpace = u) :
    ∃ b, u = pyStrip u ++ b ∧ ∀ c ∈ b, pySpace c = true := by
  refine ⟨(u.reverse.takeWhile pySpace).reverse, ?_, ?_⟩
  · have hps : pyStrip u = (u.reverse.dropWhile pySpace).reverse := by
      unfold pyStrip
      rw [h]
    calc u = u.reverse.reverse := (List.reverse_reverse u).symm
    _ = (u.reverse.takeWhile pySpace ++ u.reverse.dropWhile pySpace).reverse := by
        rw [List.takeWhile_append_dropWhile]
    _ = (u.reverse.dropWhile pySpace).reverse ++ (u.reverse.takeWhile pySpace).reverse := by
        rw [List.reverse_append]
    _ = pyStrip u ++ (u.reverse.takeWhile pySpace).reverse := by rw [hps]
  · intro c hc
    exact List.mem_takeWhile_imp (List.mem_reverse.mp hc)

/-- The key commutation: taking a prefix (by a predicate that holds on
whitespace) commutes with stripping, up to a final strip. -/
theorem pyStrip_takeWhile_pyStrip (P : Char → Bool)
    (hP : ∀ c, pySpace c = true → P c = true) (u : List Char) :
    pyStrip ((pyStrip u).takeWhile P) = pyStrip (u.takeWhile P) := by
  -- discharge the leading whitespace of `u`
  obtain hsplit := (List.takeWhile_append_dropWhile pySpace u).symm
  set t := u.takeWhile pySpace with ht
  set u₁ := u.dropWhile pySpace with hu₁
  have htsp : ∀ c ∈ t, pySpace c = true := fun c hc => List.mem_takeWhile_imp hc
  have htP : ∀ c ∈ t, P c = true := fun c hc => hP c (htsp c hc)
  have h1 : pyStrip u = pyStrip u₁ := by
    conv_lhs => rw [hsplit]
    exact pyStrip_space_append u₁ htsp
  have h2 : pyStrip (u.takeWhile P) = pyStrip (u₁.takeWhile P) := by
    conv_lhs => rw [hsplit]
    rw [List.takeWhile_append_of_pos htP]
    exact pyStrip_space_append _ htsp
  rw [h1, h2]
  -- now `u₁` has no leading whitespace; split off its trailing whitespace
  obtain ⟨b, hb, hbsp⟩ := pyStrip_core u₁ (dropWhile_idem pySpace u)
  conv_rhs => rw [hb, List.takeWhile_append]
  split
  · next hfull =>
    have hsp : ∀ c ∈ b.takeWhile P, pySpace c = true :=
      fun c hc => hbsp c (mem_takeWhile_mem hc)
    rw [takeWhile_length_eq hfull, pyStrip_append_space _ hsp]
  · rfl

/-- The separator fold computed in closed form: when some separator of `L`
occurs in `c`, the result is the stripped prefix of `c` before the first
occurrence of any separator of `L`; otherwise `c` is returned untouched.
All separators are non-whitespace. -/
theorem companyFold_characterization :
    ∀ (L : List Char) (c : List Char), (∀ s ∈ L, pySpace s = false) →
      L.foldl (fun cn sep => if sep ∈ cn then pyStrip (splitFirst sep cn) else cn) c =
        if ∃ s ∈ L, s ∈ c then pyStrip (c.takeWhile (fun x => decide (x ∉ L))) else c
  | [], c, _ => by simp
  | s₀ :: L, c, hsp => by
    have hs₀ : pySpace s₀ = false := hsp s₀ (List.mem_cons_self s₀ L)
    have hLsp : ∀ s ∈ L, pySpace s = false :=
      fun s hs => hsp s (List.mem_cons_of_mem s₀ hs)
    have hdec : ∀ x : Char, decide (x ∉ s₀ :: L) =
        (decide (x ≠ s₀) && decide (x ∉ L)) := by
      intro x
      rw [← Bool.decide_and]
      apply decide_eq_decide.mpr
      simp [List.mem_cons, not_or]
    rw [List.foldl_cons]
    by_cases h₀ : s₀ ∈ c
    · set w := splitFirst s₀ c with hw
      have hconj : c.takeWhile (fun x => decide (x ∉ s₀ :: L)) =
          w.takeWhile (fun x => decide (x ∉ L)) := by
        rw [hw]
        unfold splitFirst
        rw [← takeWhile_and]
        exact takeWhile_congr fun x _ => hdec x
      have hPsp : ∀ x : Char, pySpace x = true → decide (x ∉ L) = true := by
        intro x hx
        simp only [decide_eq_true_eq]
        intro hmem
        rw [hLsp x hmem] at hx
        exact absurd hx (by simp)
      rw [if_pos h₀, companyFold_characterization L _ hLsp,
        if_pos (show ∃ s ∈ s₀ :: L, s ∈ c from ⟨s₀, List.mem_cons_self s₀ L, h₀⟩)]
      split
      · next hex =>
        rw [hconj, ← pyStrip_takeWhile_pyStrip _ hPsp w]
      · next hex =>
        have hwfull : w.takeWhile (fun x => decide (x ∉ L)) = w := by
          rw [List.takeWhile_eq_self_iff]
          intro x hx
          simp only [decide_eq_true_eq]
          intro hmem
          exact hex ⟨x, hmem, mem_pyStrip_of_mem (hLsp x hmem) hx⟩
        rw [hconj, hwfull]
    · have hiff : (∃ s ∈ s₀ :: L, s ∈ c) ↔ ∃ s ∈ L, s ∈ c := by
        constructor
        · rintro ⟨s, hs, hsc⟩
          rcases List.mem_cons.mp hs with rfl | hs'
          · exact absurd hsc h₀
          · exact ⟨s, hs', hsc⟩
        · rintro ⟨s, hs, hsc⟩
          exact ⟨s, List.mem_cons_of_mem s₀ hs, hsc⟩
      have hcong : c.takeWhile (fun x => decide (x ∉ s₀ :: L)) =
          c.takeWhile (fun x => decide (x ∉ L)) := by
        refine takeWhile_congr fun x hx => ?_
        rw [hdec x]
        have hne : decide (x ≠ s₀) = true :=
          decide_eq_true_eq.mpr fun hxx => h₀ (hxx ▸ hx)
        rw [hne, Bool.true_and]
      rw [if_neg h₀, companyFold_characterization L c hLsp]
      by_cases hex : ∃ s ∈ L, s ∈ c
      · rw [if_pos hex, if_pos (hiff.mpr hex), hcong]
      · rw [if_neg hex, if_neg fun h => hex (hiff.mp h)]

/-- Claim C5 (corrected): when the title contains at least one separator, the
derived display name is the left-most segment before the first occurrence of
any separator, trimmed; when the title contains no separator it is returned
verbatim, *untrimmed*.  The `Acme Corp | Home Page` scenario holds. -/
theorem claim5_company_name (title : List Char) :
    ((∃ s ∈ separators, s ∈ title) →
      extract_company_name title =
        pyStrip (title.takeWhile (fun c => decide (c ∉ separators)))) ∧
    ((∀ s ∈ separators, s ∉ title) → extract_company_name title = title) ∧
    extract_company_name ("Acme Corp | Home Page".toList) = "Acme Corp".toList := by
  have hc := companyFold_characterization separators title (by decide)
  refine ⟨?_, ?_, by decide⟩
  · intro hex
    unfold extract_company_name
    rw [hc, if_pos hex]
  · intro hall
    unfold extract_company_name
    rw [hc, if_neg]
    rintro ⟨s, hs, hsc⟩
    exact hall s hs hsc

/-- Closed instance of `claim5_company_name`: a concrete title containing a
separator is cut at the separator and trimmed. -/
theorem claim5_company_name_witness :
    extract_company_name ("a|b".toList) =
      pyStrip (("a|b".toList).takeWhile (fun c => decide (c ∉ separators))) :=
  (claim5_company_name ("a|b".toList)).1 ⟨'|', by decide, by decide⟩

/-- Counterexample to claim C5 as stated: a separator-free title with
surrounding whitespace is returned with the whitespace intact, so it is not
the trimmed left-most segment. -/
theorem claim5_counterexample :
    extract_company_name ("  Acme  ".toList) ≠
      pyStrip (("  Acme  ".toList).takeWhile (fun c => decide (c ∉ separators))) := by
  decide

/-! ### Claim C2 — the merge of pattern-derived and anchor-derived URLs -/

/-- Claim C2 (code bug): on a page whose raw markup contains a bare instagram
profile URL but which has no anchors, the pattern scan finds
`https://instagram.com/acme`, yet the final record's `instagram_url` is
empty: `sns_urls.update(...)` overwrites all five entries with the anchor
dict's (here empty) values, so pattern-derived URLs never survive unless the
anchor scan also finds one. -/
theorem claim2_update_discards_pattern_urls :
    (extract_sns_urls bugPage.html).instagram = "https://instagram.com/acme".toList ∧
    (extractFromPage idOrd candU bugPage).instagram_url = [] := by
  constructor
  · decide
  · decide

/-! ### Claim C7 — the email regex: lemmas -/

theorem domain_local {c : Char} (h : isDomainChar c = true) : isLocalChar c = true := by
  simp only [isDomainChar, Bool.or_eq_true, decide_eq_true_eq] at h
  simp only [isLocalChar, Bool.or_eq_true, decide_eq_true_eq]
  tauto

theorem alpha_domain {c : Char} (h : isAsciiAlpha c = true) : isDomainChar c = true := by
  simp only [isDomainChar, isAlnum, Bool.or_eq_true]
  tauto

theorem alpha_ne_dot {c : Char} (h : isAsciiAlpha c = true) : c ≠ '.' := by
  intro hc
  subst hc
  exact absurd h (by decide)

theorem takeWhile_length_le (p : Char → Bool) :
    ∀ (l : List Char), (l.takeWhile p).length ≤ l.length
  | [] => le_rfl
  | c :: cs => by
    by_cases hp : p c
    · rw [List.takeWhile_cons_of_pos hp]
      exact Nat.succ_le_succ (takeWhile_length_le p cs)
    · rw [List.takeWhile_cons_of_neg hp]
      exact Nat.zero_le _

theorem takeWhile_take (p : Char → Bool) :
    ∀ (l : List Char), l.takeWhile p = l.take (l.takeWhile p).length
  | [] => rfl
  | c :: cs => by
    by_cases hp : p c
    · rw [List.takeWhile_cons_of_pos hp]
      simp only [List.length_cons, List.take_succ_cons]
      rw [← takeWhile_take p cs]
    · rw [List.takeWhile_cons_of_neg hp]
      rfl

theorem takeWhile_append_stop {p : Char → Bool} {a : List Char}
    (ha : ∀ c ∈ a, p c = true) {x : Char} (hx : p x = false) (rest : List Char) :
    (a ++ x :: rest).takeWhile p = a := by
  rw [List.takeWhile_append_of_pos ha, List.takeWhile_cons_of_neg (by simp [hx]),
    List.append_nil]

/-- Unfolding of a successful `domSearch`. -/
theorem domSearch_spec {M : List Char} :
    ∀ {j n : Nat}, domSearch M j = some n →
      ∃ k, 1 ≤ k ∧ k ≤ j ∧ M.get? k = some '.' ∧
        2 ≤ ((M.drop (k + 1)).takeWhile isAsciiAlpha).length ∧
        n = k + 1 + ((M.drop (k + 1)).takeWhile isAsciiAlpha).length := by
  intro j
  induction j with
  | zero => intro n h; exact absurd h (by simp [domSearch])
  | succ j ih =>
    intro n h
    rw [domSearch] at h
    cases hsp : domSplitAt M (j + 1) with
    | some m =>
      simp only [hsp] at h
      simp only [domSplitAt] at hsp
      split at hsp
      · next hdot =>
        split at hsp
        · next hlen =>
          refine ⟨j + 1, by omega, le_rfl, hdot, hlen, ?_⟩
          replace h := Option.some_inj.mp h
          replace hsp := Option.some_inj.mp hsp
          omega
        · exact absurd hsp (by simp)
      · exact absurd hsp (by simp)
    | none =>
      simp only [hsp] at h
      obtain ⟨k, h1, h2, h3, h4, h5⟩ := ih h
      exact ⟨k, h1, by omega, h3, h4, h5⟩

/-- Decomposition of a successful `emailMatchAt`: the matched portion is a
canonical email, is nonempty, stays within the string, and consists of
local-part characters and one `@`. -/
theorem emailMatchAt_spec {s : List Char} {n : Nat} (h : emailMatchAt s = some n) :
    CanonicalEmail (s.take n) ∧ 1 ≤ n ∧ n ≤ s.length ∧
      (∀ c ∈ s.take n, isLocalChar c = true ∨ c = '@') := by
  simp only [emailMatchAt] at h
  split at h
  · exact absurd h (by simp)
  · next hlp =>
    split at h
    · next rest hdrop =>
      cases hds : domSearch (rest.takeWhile isDomainChar)
          ((rest.takeWhile isDomainChar).length - 1) with
      | none => rw [hds] at h; exact absurd h (by simp)
      | some n' =>
        simp only [hds] at h
        replace h := Option.some_inj.mp h
        set lp := s.takeWhile isLocalChar with hlpdef
        set M := rest.takeWhile isDomainChar with hMdef
        obtain ⟨k, hk1, hk2, hkdot, hklen, hkn⟩ := domSearch_spec hds
        set t := (M.drop (k + 1)).takeWhile isAsciiAlpha with htdef
        have hkM : k < M.length := by
          rcases List.get?_eq_some.mp hkdot with ⟨hk, _⟩
          exact hk
        have htle : t.length ≤ M.length - (k + 1) := by
          calc t.length ≤ (M.drop (k + 1)).length := takeWhile_length_le _ _
          _ = M.length - (k + 1) := List.length_drop _ _
        have hn'M : n' ≤ M.length := by omega
        have hsdecomp : s = lp ++ '@' :: rest := by
          conv_lhs => rw [← List.take_append_drop lp.length s, hdrop]
          rw [List.append_cancel_right_eq, hlpdef, ← takeWhile_take]
        have hMrest : M.length ≤ rest.length := takeWhile_length_le _ _
        have hdotlist : M.take (k + 1) = M.take k ++ ['.'] := by
          rw [List.take_succ, ← List.get?_eq_getElem?, hkdot]
          rfl
        have htt : (M.drop (k + 1)).take t.length = t := (takeWhile_take _ _).symm
        have hMn' : M.take n' = M.take k ++ '.' :: t := by
          rw [hkn, show k + 1 + t.length = (k + 1) + t.length by omega,
            List.take_add, hdotlist, htt, List.append_assoc, List.singleton_append]
        have hrestn' : rest.take n' = M.take n' := by
          conv_lhs => rw [← List.takeWhile_append_dropWhile isDomainChar rest]
          rw [List.take_append_eq_append_take]
          have : n' - (rest.takeWhile isDomainChar).length = 0 := by
            rw [← hMdef]
            omega
          rw [this, List.take_zero, List.append_nil]
        have htake : s.take n = lp ++ '@' :: (M.take k ++ '.' :: t) := by
          rw [← h, hsdecomp,
            show lp.length + 1 + n' = lp.length + (n' + 1) by omega,
            List.take_append, List.take_succ_cons, hrestn', hMn']
        have hcanon : CanonicalEmail (s.take n) := by
          refine ⟨lp, M.take k, t, htake, ?_, ?_, ?_, ?_, ?_, hklen⟩
          · intro hnil
            apply hlp
            rw [hnil]
            rfl
          · intro c hc
            exact List.mem_takeWhile_imp hc
          · intro hnil
            have : (M.take k).length = 0 := by rw [hnil]; rfl
            rw [List.length_take] at this
            omega
          · intro c hc
            exact List.mem_takeWhile_imp (List.take_subset k M hc)
          · intro c hc
            exact List.mem_takeWhile_imp hc
        refine ⟨hcanon, by omega, ?_, ?_⟩
        · rw [hsdecomp]
          simp only [List.length_append, List.length_cons]
          omega
        · intro c hc
          rw [htake] at hc
          rcases List.mem_append.mp hc with hc | hc
          · exact Or.inl (List.mem_takeWhile_imp hc)
          · rcases List.mem_cons.mp hc with rfl | hc
            · exact Or.inr rfl
            · rcases List.mem_append.mp hc with hc | hc
              · exact Or.inl (domain_local
                  (List.mem_takeWhile_imp (List.take_subset k M hc)))
              · rcases List.mem_cons.mp hc with rfl | hc
                · exact Or.inl (by decide)
                · exact Or.inl (domain_local (alpha_domain
                    (List.mem_takeWhile_imp hc)))
    · exact absurd h (by simp)

/-- On `d ++ '.' :: t` with canonical classes, the greedy split search finds
the final dot and consumes everything: positions beyond `d.length` hold
alphabetic characters of `t` (never a dot), and at `d.length` the dot is
followed by the whole alphabetic run `t`. -/
theorem domSearch_exact {d t : List Char} (hd : d ≠ [])
    (ht : ∀ c ∈ t, isAsciiAlpha c = true) (ht2 : 2 ≤ t.length) :
    ∀ j, d.length ≤ j → j ≤ d.length + t.length →
      domSearch (d ++ '.' :: t) j = some (d.length + 1 + t.length) := by
  intro j
  induction j with
  | zero =>
    intro h1 _
    exact absurd (List.length_eq_zero.mp (Nat.le_zero.mp h1)) hd
  | succ j ih =>
    intro h1 h2
    by_cases hj : j + 1 = d.length
    · have hget : (d ++ '.' :: t).get? (j + 1) = some '.' := by
        rw [hj, List.get?_append_right le_rfl, Nat.sub_self]
        rfl
      have hdrop : (d ++ '.' :: t).drop (j + 1 + 1) = t := by
        rw [hj, show d.length + 1 = d.length + 1 from rfl, List.drop_append]
        rfl
      have hsp : domSplitAt (d ++ '.' :: t) (j + 1) = some (d.length + 1 + t.length) := by
        simp only [domSplitAt, hget, hdrop, List.takeWhile_eq_self_iff.mpr ht]
        rw [if_pos trivial, if_pos ht2, hj]
      simp only [domSearch, hsp]
    · have hj1 : d.length < j + 1 := by omega
      have hidx : j - d.length < t.length := by omega
      have hgfull : (d ++ '.' :: t).get? (j + 1) = some (t.get ⟨j - d.length, hidx⟩) := by
        rw [List.get?_append_right (by omega),
          show j + 1 - d.length = (j - d.length) + 1 by omega,
          List.get?_cons_succ, List.get?_eq_get hidx]
      have hsp : domSplitAt (d ++ '.' :: t) (j + 1) = none := by
        unfold domSplitAt
        rw [hgfull, if_neg]
        intro heq
        exact alpha_ne_dot (ht _ (t.get_mem _ _)) (Option.some_inj.mp heq)
      simp only [domSearch, hsp]
      exact ih (by omega) (by omega)

/-- Completeness of the matcher at the start of a canonical email followed by
a non-gluing right context: the match is exactly the email. -/
theorem emailMatchAt_exact {lp d t r : List Char}
    (hlp : lp ≠ []) (hlpc : ∀ c ∈ lp, isLocalChar c = true)
    (hd : d ≠ []) (hdc : ∀ c ∈ d, isDomainChar c = true)
    (ht : ∀ c ∈ t, isAsciiAlpha c = true) (ht2 : 2 ≤ t.length)
    (hr : rBoundary r = true) :
    emailMatchAt (emailOf lp d t ++ r) = some (emailOf lp d t).length := by
  have hs : emailOf lp d t ++ r = lp ++ '@' :: ((d ++ '.' :: t) ++ r) := by
    simp [emailOf]
  have hMall : ∀ c ∈ d ++ '.' :: t, isDomainChar c = true := by
    intro c hc
    rcases List.mem_append.mp hc with hc | hc
    · exact hdc c hc
    · rcases List.mem_cons.mp hc with rfl | hc
      · decide
      · exact alpha_domain (ht c hc)
  have hlptw : (lp ++ '@' :: ((d ++ '.' :: t) ++ r)).takeWhile isLocalChar = lp :=
    takeWhile_append_stop hlpc (by decide) _
  have hMtw : ((d ++ '.' :: t) ++ r).takeWhile isDomainChar = d ++ '.' :: t := by
    cases r with
    | nil =>
      rw [List.append_nil]
      exact List.takeWhile_eq_self_iff.mpr hMall
    | cons c r' =>
      refine takeWhile_append_stop hMall ?_ r'
      unfold rBoundary at hr
      simp only [List.head?_cons, Bool.not_eq_true'] at hr
      exact hr
  have hMlen : (d ++ '.' :: t).length - 1 = d.length + t.length := by
    simp only [List.length_append, List.length_cons]
    omega
  have hds := domSearch_exact hd ht ht2 (d.length + t.length) (by omega) le_rfl
  have hlplen : ¬ lp.length = 0 := fun h0 => hlp (List.length_eq_zero.mp h0)
  rw [hs]
  simp only [emailMatchAt, hlptw, if_neg hlplen, List.drop_left, hMtw, hMlen, hds]
  have : (emailOf lp d t).length = lp.length + 1 + (d.length + 1 + t.length) := by
    simp only [emailOf, List.length_append, List.length_cons]
    omega
  rw [this]

theorem lBoundary_tail {x : Char} {l : List Char} (h : lBoundary (x :: l) = true) :
    lBoundary l = true := by
  cases l with
  | nil => rfl
  | cons y l' =>
    unfold lBoundary at h ⊢
    have hgl : (x :: y :: l').getLast? = (y :: l').getLast? := List.getLast?_cons_cons
    rw [hgl] at h
    exact h

theorem getLast?_drop : ∀ {l : List Char} {n : Nat}, n < l.length →
    (l.drop n).getLast? = l.getLast? := by
  intro l
  induction l with
  | nil => intro n h; simp at h
  | cons c cs ih =>
    intro n h
    cases n with
    | zero => rfl
    | succ n =>
      rw [List.drop_succ_cons]
      have hn : n < cs.length := by
        simp only [List.length_cons] at h
        omega
      rw [ih hn]
      cases cs with
      | nil => simp at hn
      | cons y l' =>
        have hgl : (c :: y :: l').getLast? = (y :: l').getLast? := List.getLast?_cons_cons
        rw [hgl]

/-- Completeness at the head: the email at the very start of the string is
the first match found. -/
theorem emailFindall_complete_head {lp d t r : List Char}
    (hlp : lp ≠ []) (hlpc : ∀ c ∈ lp, isLocalChar c = true)
    (hd : d ≠ []) (hdc : ∀ c ∈ d, isDomainChar c = true)
    (ht : ∀ c ∈ t, isAsciiAlpha c = true) (ht2 : 2 ≤ t.length)
    (hr : rBoundary r = true) :
    emailOf lp d t ∈ emailFindall (emailOf lp d t ++ r) := by
  have hm := emailMatchAt_exact hlp hlpc hd hdc ht ht2 hr
  obtain ⟨a, lp', rfl⟩ : ∃ a lp', lp = a :: lp' := by
    cases lp with
    | nil => exact absurd rfl hlp
    | cons a lp' => exact ⟨a, lp', rfl⟩
  have heq : emailOf (a :: lp') d t ++ r =
      a :: ((lp' ++ '@' :: (d ++ '.' :: t)) ++ r) := rfl
  rw [heq, emailFindall_cons]
  rw [heq] at hm
  simp only [hm]
  refine List.mem_cons.mpr (Or.inl ?_)
  rw [← heq, List.take_left' rfl]

/-- Completeness through an arbitrary left context whose last character does
not glue: every match the scan makes before reaching the email ends strictly
inside the left context, so the scan eventually reaches the email and matches
it exactly.  Induction on a bound for the left context's length. -/
theorem emailFindall_complete_aux :
    ∀ (N : Nat) (l : List Char), l.length ≤ N →
      ∀ (lp d t r : List Char), lp ≠ [] → (∀ c ∈ lp, isLocalChar c = true) →
        d ≠ [] → (∀ c ∈ d, isDomainChar c = true) →
        (∀ c ∈ t, isAsciiAlpha c = true) → 2 ≤ t.length →
        lBoundary l = true → rBoundary r = true →
        emailOf lp d t ∈ emailFindall (l ++ (emailOf lp d t ++ r)) := by
  intro N
  induction N with
  | zero =>
    intro l hl lp d t r h1 h2 h3 h4 h5 h6 _ hrb
    have : l = [] := List.eq_nil_of_length_eq_zero (Nat.le_zero.mp hl)
    subst this
    rw [List.nil_append]
    exact emailFindall_complete_head h1 h2 h3 h4 h5 h6 hrb
  | succ N ih =>
    intro l hl lp d t r h1 h2 h3 h4 h5 h6 hlb hrb
    cases l with
    | nil =>
      rw [List.nil_append]
      exact emailFindall_complete_head h1 h2 h3 h4 h5 h6 hrb
    | cons x l' =>
      have heq : (x :: l') ++ (emailOf lp d t ++ r) =
          x :: (l' ++ (emailOf lp d t ++ r)) := rfl
      cases hm : emailMatchAt ((x :: l') ++ (emailOf lp d t ++ r)) with
      | none =>
        rw [heq, emailFindall_cons]
        rw [heq] at hm
        simp only [hm]
        have hl' : l'.length ≤ N := by
          simp only [List.length_cons] at hl
          omega
        exact ih l' hl' lp d t r h1 h2 h3 h4 h5 h6 (lBoundary_tail hlb) hrb
      | some n =>
        obtain ⟨_, hn1, _, hchars⟩ := emailMatchAt_spec hm
        obtain ⟨c, hgl⟩ : ∃ c, (x :: l').getLast? = some c := by
          cases hx : (x :: l').getLast? with
          | none => exact absurd hx (by simp)
          | some c => exact ⟨c, rfl⟩
        have hcbound : isLocalChar c = false ∧ c ≠ '@' := by
          unfold lBoundary at hlb
          rw [hgl] at hlb
          simp only [Bool.and_eq_true, Bool.not_eq_true', decide_eq_true_eq] at hlb
          exact ⟨hlb.1, by simpa using hlb.2⟩
        have hnL : n < (x :: l').length := by
          by_contra hge
          push_neg at hge
          have hcL : c ∈ (x :: l') := List.mem_of_getLast?_eq_some hgl
          have hctake : c ∈ ((x :: l') ++ (emailOf lp d t ++ r)).take n := by
            rw [List.take_append_eq_append_take]
            exact List.mem_append.mpr
              (Or.inl (by rw [List.take_of_length_le hge]; exact hcL))
          rcases hchars c hctake with hc | hc
          · rw [hcbound.1] at hc
            exact absurd hc (by simp)
          · exact hcbound.2 hc
        rw [heq, emailFindall_cons]
        rw [heq] at hm
        simp only [hm]
        refine List.mem_cons.mpr (Or.inr ?_)
        have hcont : (l' ++ (emailOf lp d t ++ r)).drop (n - 1) =
            (x :: l').drop n ++ (emailOf lp d t ++ r) := by
          rw [List.drop_append_eq_append_drop]
          have hle : n - 1 ≤ l'.length := by
            simp only [List.length_cons] at hnL
            omega
          rw [Nat.sub_eq_zero_of_le hle, List.drop_zero,
            show (x :: l').drop n = l'.drop (n - 1) by
              cases n with
              | zero => omega
              | succ n => rw [List.drop_succ_cons, Nat.succ_sub_one]]
        rw [hcont]
        have hlb' : lBoundary ((x :: l').drop n) = true := by
          unfold lBoundary
          rw [getLast?_drop hnL, hgl]
          unfold lBoundary at hlb
          rw [hgl] at hlb
          exact hlb
        have hlen' : ((x :: l').drop n).length ≤ N := by
          rw [List.length_drop]
          simp only [List.length_cons] at hl ⊢
          omega
        exact ih _ hlen' lp d t r h1 h2 h3 h4 h5 h6 hlb' hrb

/-- Soundness of the scan: every reported match occurs in the string and is
a canonical email. -/
theorem emailFindallAux_sound :
    ∀ (fuel : Nat) (s : List Char), ∀ m ∈ emailFindallAux fuel s,
      (∃ u v, s = u ++ (m ++ v)) ∧ CanonicalEmail m := by
  intro fuel
  induction fuel with
  | zero => intro s m hm; exact absurd hm (by simp [emailFindallAux])
  | succ fuel ih =>
    intro s m hm
    cases s with
    | nil => exact absurd hm (by simp [emailFindallAux])
    | cons c cs =>
      rw [emailFindallAux] at hm
      cases hma : emailMatchAt (c :: cs) with
      | none =>
        rw [hma] at hm
        obtain ⟨⟨u, v, hd⟩, hc⟩ := ih cs m hm
        exact ⟨⟨c :: u, v, by rw [List.cons_append, hd]⟩, hc⟩
      | some n =>
        rw [hma] at hm
        obtain ⟨hcan, hn1, _, _⟩ := emailMatchAt_spec hma
        rcases List.mem_cons.mp hm with rfl | hm
        · refine ⟨⟨[], (c :: cs).drop n, ?_⟩, hcan⟩
          rw [List.nil_append, List.take_append_drop]
        · obtain ⟨⟨u, v, hd⟩, hc⟩ := ih (cs.drop (n - 1)) m hm
          refine ⟨⟨(c :: cs).take n ++ u, v, ?_⟩, hc⟩
          conv_lhs => rw [← List.take_append_drop n (c :: cs)]
          rw [show (c :: cs).drop n = cs.drop (n - 1) by
              cases n with
              | zero => omega
              | succ n => rw [List.drop_succ_cons, Nat.succ_sub_one],
            hd, List.append_assoc]

theorem emailFindall_sound {s m : List Char} (hm : m ∈ emailFindall s) :
    (∃ u v, s = u ++ (m ++ v)) ∧ CanonicalEmail m :=
  emailFindallAux_sound s.length s m hm

theorem emailFindall_empty_of_no_canonical (s : List Char)
    (h : ¬ ∃ m u v, s = u ++ (m ++ v) ∧ CanonicalEmail m) : emailFindall s = [] := by
  cases hf : emailFindall s with
  | nil => rfl
  | cons m rest =>
    exfalso
    have hm : m ∈ emailFindall s := by rw [hf]; exact List.mem_cons_self m rest
    obtain ⟨⟨u, v, hd⟩, hc⟩ := emailFindall_sound hm
    exact h ⟨m, u, v, hd, hc⟩

theorem extract_emails_mem {ord : DedupOrd} (hord : ValidDedup ord)
    (s e : List Char) : e ∈ extract_emails ord s ↔ e ∈ emailFindall s := by
  unfold extract_emails
  split
  · next hs =>
    subst hs
    rw [emailFindall_nil]
  · exact (hord (emailFindall s)).2 e

/-- Claim C7 (corrected): the email pattern recovers a canonical email
embedded in surrounding text provided the embedding does not glue — the
character before it is neither a local-part character nor `@`, and the
character after it is not a domain character; when the surrounding text glues
(e.g. `xa@b.co`), the recovered match is a different, longer string (see the
counterexample).  A string with no canonical-email substring yields no
matches, empty text yields the empty set, and membership in the
de-duplicated `_extract_emails` result coincides with membership in the scan
result for every legitimate set order. -/
theorem claim7_email_extraction :
    (∀ lp d t l r : List Char, lp ≠ [] → (∀ c ∈ lp, isLocalChar c = true) →
      d ≠ [] → (∀ c ∈ d, isDomainChar c = true) →
      (∀ c ∈ t, isAsciiAlpha c = true) → 2 ≤ t.length →
      lBoundary l = true → rBoundary r = true →
      emailOf lp d t ∈ emailFindall (l ++ (emailOf lp d t ++ r))) ∧
    (∀ s : List Char, (¬ ∃ m u v, s = u ++ (m ++ v) ∧ CanonicalEmail m) →
      emailFindall s = []) ∧
    emailFindall [] = [] ∧
    (∀ ord, ValidDedup ord → ∀ s e, e ∈ extract_emails ord s ↔ e ∈ emailFindall s) := by
  refine ⟨?_, emailFindall_empty_of_no_canonical, rfl, fun ord hord => extract_emails_mem hord⟩
  intro lp d t l r h1 h2 h3 h4 h5 h6 hlb hrb
  exact emailFindall_complete_aux l.length l le_rfl lp d t r h1 h2 h3 h4 h5 h6 hlb hrb

/-- Closed instance of `claim7_email_extraction`: the email `a@b.co` preceded
by a space and followed by nothing is recovered. -/
theorem claim7_email_extraction_witness :
    emailOf ("a".toList) ("b".toList) ("co".toList) ∈
      emailFindall ((" ".toList) ++ (emailOf ("a".toList) ("b".toList) ("co".toList) ++ [])) :=
  claim7_email_extraction.1 ("a".toList) ("b".toList) ("co".toList) (" ".toList) []
    (by decide) (by decide) (by decide) (by decide) (by decide) (by decide)
    (by decide) (by decide)

/-- Counterexample to claim C7 as stated: embedding the valid email `a@b.co`
in the surrounding text `x`/`` (an arbitrary embedding) makes the extractor
return only `xa@b.co` — the embedded email itself is not recovered. -/
theorem claim7_counterexample :
    CanonicalEmail ("a@b.co".toList) ∧
    emailFindall ("xa@b.co".toList) = ["xa@b.co".toList] ∧
    "a@b.co".toList ∉ emailFindall ("xa@b.co".toList) := by
  refine ⟨⟨"a".toList, "b".toList, "co".toList, rfl, by decide, by decide, by decide,
    by decide, by decide, by decide⟩, by decide, by decide⟩

end InfluencerFinder
